import Mathlib

/-!
Verification of the `fast_escape` crate (`src/lib.rs`): a character-set
abstraction (`ContainsChar` and its implementations) and the escaping
transform (`Escaper` with `transform_char` and `transform_size_hint`).

The trait `ContainsChar` together with the concrete implementations in the
source is embedded as the inductive `CharSet`; each constructor corresponds
to one `impl ContainsChar for ...` block, and `CharSet.contains_char`
reproduces each implementation's body.  Sinks (`fast_fmt::Write`) are
embedded as state-transition functions `σ → Char → Except ε σ`, mirroring
`fn write_char(&mut self, c: char) -> Result<(), Self::Error>`.
-/

set_option autoImplicit false

universe u v

/-- Embedding of the `ContainsChar` implementors of `src/lib.rs`:
`char`, `[char]`, `Range<char>`, `RangeFrom<char>`, `RangeTo<char>`,
`RangeFull`, `Union<A, B>`, `Predicate<F>`, and the blanket `&T` impl. -/
inductive CharSet : Type where
  | single (x : Char) : CharSet
  | list (l : List Char) : CharSet
  | range (start stop : Char) : CharSet
  | rangeFrom (start : Char) : CharSet
  | rangeTo (stop : Char) : CharSet
  | rangeFull : CharSet
  | union (a b : CharSet) : CharSet
  | pred (f : Char → Bool) : CharSet
  | ref (s : CharSet) : CharSet

/-- `ContainsChar::contains_char`, one equation per `impl` block of the
source.  `single` is `c == *self`; `list` is `self.contains(&c)`;
`range` is `c >= self.start && c < self.end`; `rangeFrom` is
`c >= self.start`; `rangeTo` is `c < self.end`; `rangeFull` is `true`;
`union` is `self.a.contains_char(c) || self.b.contains_char(c)` (Rust `||`
short-circuits, which the `Bool.or` match semantics reproduces); `pred` is
`self.0(c)`; `ref` is the blanket impl `(*self).contains_char(c)`. -/
def CharSet.contains_char : CharSet → Char → Bool
  | .single x, c => c == x
  | .list l, c => l.contains c
  | .range a b, c => decide (a ≤ c) && decide (c < b)
  | .rangeFrom a, c => decide (a ≤ c)
  | .rangeTo b, c => decide (c < b)
  | .rangeFull, _ => true
  | .union a b, c => a.contains_char c || b.contains_char c
  | .pred f, c => f c
  | .ref s, c => s.contains_char c

/-- Instrumented evaluation of `contains_char`: the result together with
the number of primitive (non-`Union`, non-reference) membership tests the
source actually performs, honouring Rust's short-circuiting `||` in the
`Union` implementation: when the left operand returns `true`, the right
operand is never evaluated. -/
def CharSet.contains_count : CharSet → Char → Bool × Nat
  | .single x, c => (c == x, 1)
  | .list l, c => (l.contains c, 1)
  | .range a b, c => (decide (a ≤ c) && decide (c < b), 1)
  | .rangeFrom a, c => (decide (a ≤ c), 1)
  | .rangeTo b, c => (decide (c < b), 1)
  | .rangeFull, _ => (true, 1)
  | .pred f, c => (f c, 1)
  | .ref s, c => s.contains_count c
  | .union a b, c =>
    match a.contains_count c with
    | (true, na) => (true, na)
    | (false, na) =>
      match b.contains_count c with
      | (rb, nb) => (rb, na + nb)

/-- `ContainsChar::union`, the default-method combinator:
`Union::new(self, other)`. -/
def CharSet.union_comb (a b : CharSet) : CharSet := CharSet.union a b

/-- Rust's `char::len_utf8`: the number of bytes of the UTF-8 encoding of
a Unicode scalar value. -/
def lenUtf8 (c : Char) : Nat :=
  if c.toNat < 0x80 then 1
  else if c.toNat < 0x800 then 2
  else if c.toNat < 0x10000 then 3
  else 4

/-- Total number of UTF-8 bytes of a sequence of characters. -/
def utf8Bytes (l : List Char) : Nat := (l.map lenUtf8).sum

/-- The `Escaper` struct: the set of characters to escape and the escape
character, as captured by `Escaper::new`. -/
structure Escaper : Type where
  chars : CharSet
  escape : Char

/-- `Escaper::new(escape_char, special_chars)`. -/
def Escaper.new (escape_char : Char) (special_chars : CharSet) : Escaper :=
  { chars := special_chars, escape := escape_char }

/-- A sink (`fast_fmt::Write` instance) over state type `σ` with error
type `ε`: `write_char` either fails with a sink error or returns the
updated sink state. -/
def Sink (σ : Type u) (ε : Type v) : Type (max u v) := σ → Char → Except ε σ

/-- `Escaper::transform_char` from the `Transform` impl:
`if self.chars.contains_char(c) { writer.write_char(self.escape)?; }`
followed by `writer.write_char(c)`; the `?` operator returns the sink
error immediately. -/
def Escaper.transform_char {σ : Type u} {ε : Type v} (esc : Escaper)
    (w : Sink σ ε) (s : σ) (c : Char) : Except ε σ :=
  if esc.chars.contains_char c then
    match w s esc.escape with
    | Except.error e => Except.error e
    | Except.ok s1 => w s1 c
  else
    w s c

/-- `Escaper::transform_size_hint`: `bytes * self.escape.len_utf8()`,
with the multiplication read over the mathematical naturals. -/
def Escaper.transform_size_hint (esc : Escaper) (bytes : Nat) : Nat :=
  bytes * lenUtf8 esc.escape

/-- `Escaper::transform_size_hint` over `w`-bit fixed-width unsigned
machine arithmetic (`usize` of word width `w`, wrapping multiplication as
in a release build): `(bytes * self.escape.len_utf8()) mod 2^w`. -/
def Escaper.transform_size_hint_mach (w : Nat) (esc : Escaper) (bytes : Nat) : Nat :=
  (bytes * lenUtf8 esc.escape) % 2 ^ w

/-- Writing a list of characters to a sink one at a time, stopping at the
first sink error.  This is the reference against which the write sequence
performed by `transform_char` is characterised. -/
def writeList {σ : Type u} {ε : Type v} (w : Sink σ ε) : σ → List Char → Except ε σ
  | s, [] => Except.ok s
  | s, c :: cs =>
    match w s c with
    | Except.error e => Except.error e
    | Except.ok s1 => writeList w s1 cs

/-- The canonical error-free collecting sink: appends every written
character to the accumulated output and never fails. -/
def collectSink : Sink (List Char) Empty := fun s c => Except.ok (s ++ [c])

/-- Extracting the value of a computation whose error type is empty. -/
def ofOk {α : Type u} : Except Empty α → α
  | Except.ok a => a

/-- Driving every character of the input through
`Escaper::transform_char` onto the collecting sink, starting from an
already-produced prefix `s`. -/
def Escaper.runFrom (esc : Escaper) : List Char → List Char → Except Empty (List Char)
  | s, [] => Except.ok s
  | s, c :: cs =>
    match esc.transform_char collectSink s c with
    | Except.error e => e.elim
    | Except.ok s1 => esc.runFrom s1 cs

/-- The full output of escaping an input character sequence: every
character driven through `transform_char` onto an error-free sink. -/
def Escaper.escapeString (esc : Escaper) (input : List Char) : List Char :=
  ofOk (esc.runFrom [] input)

/-- The per-character contribution of the escaping transform: a special
character is emitted as escape-then-character, any other character is
emitted alone. -/
def escOne (esc : Escaper) (c : Char) : List Char :=
  if esc.chars.contains_char c then [esc.escape, c] else [c]

theorem one_le_lenUtf8 (c : Char) : 1 ≤ lenUtf8 c := by
  unfold lenUtf8
  split
  · exact Nat.le_refl 1
  · split
    · omega
    · split <;> omega

theorem length_le_utf8Bytes (l : List Char) : l.length ≤ utf8Bytes l := by
  induction l with
  | nil => exact Nat.le_refl 0
  | cons c cs ih =>
    have := one_le_lenUtf8 c
    simp only [utf8Bytes, List.map_cons, List.sum_cons, List.length_cons] at *
    omega

theorem utf8Bytes_append (l1 l2 : List Char) :
    utf8Bytes (l1 ++ l2) = utf8Bytes l1 + utf8Bytes l2 := by
  simp [utf8Bytes]

/-- One call of `transform_char` against an arbitrary sink performs
exactly the write sequence "escape character when the set contains `c`,
then `c`", stopping at the first sink error. -/
theorem transform_char_writes {σ : Type u} {ε : Type v} (esc : Escaper)
    (w : Sink σ ε) (s : σ) (c : Char) :
    esc.transform_char w s c =
      writeList w s ((if esc.chars.contains_char c then [esc.escape] else []) ++ [c]) := by
  unfold Escaper.transform_char
  cases h : esc.chars.contains_char c with
  | false =>
    simp only [if_neg, Bool.false_eq_true, List.nil_append, writeList]
    cases hw : w s c <;> simp [writeList]
  | true =>
    simp only [if_pos, List.cons_append, List.nil_append, writeList]
    cases hw : w s esc.escape with
    | error e => rfl
    | ok s1 => cases hw2 : w s1 c <;> simp [writeList, hw2]

theorem transform_char_collect (esc : Escaper) (s : List Char) (c : Char) :
    esc.transform_char collectSink s c = Except.ok (s ++ escOne esc c) := by
  rw [transform_char_writes]
  unfold escOne
  cases h : esc.chars.contains_char c <;> simp [writeList, collectSink]

theorem runFrom_eq (esc : Escaper) (input : List Char) : ∀ s : List Char,
    esc.runFrom s input = Except.ok (s ++ input.flatMap (escOne esc)) := by
  induction input with
  | nil => intro s; simp [Escaper.runFrom]
  | cons c cs ih =>
    intro s
    simp only [Escaper.runFrom, transform_char_collect, ih, List.flatMap_cons,
      List.append_assoc]

theorem escapeString_eq (esc : Escaper) (input : List Char) :
    esc.escapeString input = input.flatMap (escOne esc) := by
  simp [Escaper.escapeString, runFrom_eq, ofOk]

theorem contains_count_fst (s : CharSet) (c : Char) :
    (s.contains_count c).1 = s.contains_char c := by
  induction s with
  | single x => rfl
  | list l => rfl
  | range a b => rfl
  | rangeFrom a => rfl
  | rangeTo b => rfl
  | rangeFull => rfl
  | pred f => rfl
  | ref s ih => exact ih
  | union a b iha ihb =>
    simp only [CharSet.contains_count, CharSet.contains_char]
    rcases ha : a.contains_count c with ⟨ra, na⟩
    rcases hb : b.contains_count c with ⟨rb, nb⟩
    rw [ha] at iha
    rw [hb] at ihb
    cases ra with
    | true => simp [← iha]
    | false => simp [← iha, ← ihb, hb]

theorem contains_count_union_left (a b : CharSet) (c : Char)
    (h : a.contains_char c = true) :
    (CharSet.union a b).contains_count c = a.contains_count c := by
  have h1 : (a.contains_count c).1 = true := by rw [contains_count_fst]; exact h
  simp only [CharSet.contains_count]
  rcases ha : a.contains_count c with ⟨ra, na⟩
  rw [ha] at h1
  simp only at h1
  subst h1
  rfl

theorem foldl_union_contains (sets : List CharSet) (c : Char) : ∀ A : CharSet,
    (sets.foldl CharSet.union_comb A).contains_char c
      = sets.foldl (fun r s => r || s.contains_char c) (A.contains_char c) := by
  induction sets with
  | nil => intro A; rfl
  | cons s ss ih =>
    intro A
    simp only [List.foldl_cons]
    rw [ih]
    rfl

/-- C1: for every character set, escape character, sink and input
character, `transform_char` first writes the escape character to the sink
exactly when the configured set contains `c`, and then writes `c` itself;
when `c` is not special, only `c` is written. -/
theorem transform_char_write_order {σ : Type u} {ε : Type v} (esc : Escaper)
    (w : Sink σ ε) (s : σ) (c : Char) :
    esc.transform_char w s c =
      writeList w s ((if esc.chars.contains_char c then [esc.escape] else []) ++ [c]) :=
  transform_char_writes esc w s c

/-- C2: driving every input character through `transform_char` onto the
error-free collecting sink yields an output whose length equals the input
length plus the number of input characters the set contains, and which is
exactly the in-order concatenation of `[escape, c]` for each special `c`
and `[c]` for every other `c` — so every special character is immediately
preceded by exactly one inserted escape character and no input character
is dropped or duplicated. -/
theorem escape_stream_spec (esc : Escaper) (input : List Char) :
    (esc.escapeString input).length
      = input.length + input.countP esc.chars.contains_char ∧
    esc.escapeString input = input.flatMap (escOne esc) := by
  refine ⟨?_, escapeString_eq esc input⟩
  rw [escapeString_eq]
  induction input with
  | nil => rfl
  | cons c cs ih =>
    simp only [List.flatMap_cons, List.length_append, List.length_cons,
      List.countP_cons, ih]
    unfold escOne
    cases h : esc.chars.contains_char c <;> simp [h] <;> omega

/-- C3: union membership is the disjunction of the operands' memberships;
the equation extends to n-way chained unions built by folding the `union`
combinator; the result is commutative in the two operands; and, by
short-circuiting, the right operand is never evaluated when the left one
accepts the character. -/
theorem union_contains_spec (A B : CharSet) (c : Char) (sets : List CharSet) :
    ((A.union_comb B).contains_char c = (A.contains_char c || B.contains_char c)) ∧
    ((A.union_comb B).contains_char c = (B.union_comb A).contains_char c) ∧
    ((sets.foldl CharSet.union_comb A).contains_char c
      = sets.foldl (fun r s => r || s.contains_char c) (A.contains_char c)) ∧
    (A.contains_char c = true → (A.union_comb B).contains_count c = A.contains_count c) := by
  refine ⟨rfl, ?_, foldl_union_contains sets c A, fun h => contains_count_union_left A B c h⟩
  show (A.contains_char c || B.contains_char c) = (B.contains_char c || A.contains_char c)
  exact Bool.or_comm _ _

/-- Witness for C3 at a concrete instance: the left operand accepts `a`,
and the union's instrumented evaluation coincides with the left
operand's alone (the right operand is not evaluated). -/
theorem union_contains_spec_witness :
    (CharSet.single 'a').contains_char 'a' = true ∧
    ((CharSet.single 'a').union_comb (CharSet.single 'b')).contains_count 'a'
      = (CharSet.single 'a').contains_count 'a' :=
  ⟨by decide,
   (union_contains_spec (CharSet.single 'a') (CharSet.single 'b') 'a' []).2.2.2 (by decide)⟩

/-- C8: the blanket implementation for references delegates unchanged:
membership through a reference equals membership of the referenced set. -/
theorem ref_contains_delegates (s : CharSet) (c : Char) :
    (CharSet.ref s).contains_char c = s.contains_char c := rfl

/-- C10: the empty character slice is a valid set containing nothing, and
an `Escaper` built over it passes every input through unchanged without
ever emitting its escape character. -/
theorem empty_slice_identity (e : Char) (input : List Char) (c : Char) :
    (CharSet.list []).contains_char c = false ∧
    (Escaper.new e (CharSet.list [])).escapeString input = input := by
  refine ⟨rfl, ?_⟩
  rw [escapeString_eq]
  induction input with
  | nil => rfl
  | cons d ds ih =>
    simp only [List.flatMap_cons, ih, escOne]
    rfl

/-- C4 counterexample: with escape character backslash (1 UTF-8 byte) and
special set containing only the dollar sign, the 1-byte input consisting
of a single dollar sign escapes to 2 output bytes, exceeding
`transform_size_hint 1 = 1`; so `n * k` is not an upper bound on the
total number of output bytes. -/
theorem size_hint_not_output_bound :
    ¬ (utf8Bytes ((Escaper.new '\\' (CharSet.single '$')).escapeString ['$'])
        ≤ (Escaper.new '\\' (CharSet.single '$')).transform_size_hint (utf8Bytes ['$'])) := by
  decide

/-- C4 amended: `transform_size_hint` returns exactly `n * k` where `k`
is the UTF-8 width of the escape character, and that value is a
conservative upper bound on the number of additional output bytes: the
escaped output occupies at most the input's bytes plus the hint. -/
theorem size_hint_extra_bound (esc : Escaper) (input : List Char) :
    esc.transform_size_hint (utf8Bytes input)
      = utf8Bytes input * lenUtf8 esc.escape ∧
    utf8Bytes (esc.escapeString input)
      ≤ utf8Bytes input + esc.transform_size_hint (utf8Bytes input) := by
  refine ⟨rfl, ?_⟩
  rw [escapeString_eq]
  unfold Escaper.transform_size_hint
  induction input with
  | nil => simp [utf8Bytes]
  | cons c cs ih =>
    have hc : lenUtf8 esc.escape ≤ lenUtf8 c * lenUtf8 esc.escape :=
      Nat.le_mul_of_pos_left _ (one_le_lenUtf8 c)
    simp only [List.flatMap_cons, utf8Bytes_append] at *
    have hbytes : utf8Bytes (c :: cs) = lenUtf8 c + utf8Bytes cs := by
      simp [utf8Bytes]
    rw [hbytes, Nat.add_mul]
    have hone : utf8Bytes (escOne esc c)
        ≤ lenUtf8 c + lenUtf8 c * lenUtf8 esc.escape := by
      unfold escOne
      cases h : esc.chars.contains_char c <;> simp [utf8Bytes] <;> omega
    omega

/-- C5: a sink failure during `transform_char` is returned unchanged and
aborts the character pair: if the escape write fails the character itself
is never written; if the escape write succeeds the result is exactly the
second write; when the character is not special the result is exactly the
single write; and any failure of `transform_char` is some sink write
failure with that very error. -/
theorem sink_error_propagation {σ : Type u} {ε : Type v} (esc : Escaper)
    (w : Sink σ ε) (s : σ) (c : Char) (err : ε) :
    (esc.chars.contains_char c = true → w s esc.escape = Except.error err →
      esc.transform_char w s c = Except.error err) ∧
    (∀ s1, esc.chars.contains_char c = true → w s esc.escape = Except.ok s1 →
      esc.transform_char w s c = w s1 c) ∧
    (esc.chars.contains_char c = false → esc.transform_char w s c = w s c) ∧
    (esc.transform_char w s c = Except.error err →
      ∃ s0 ch, w s0 ch = Except.error err) := by
  refine ⟨?_, ?_, ?_, ?_⟩
  · intro h hw
    simp [Escaper.transform_char, h, hw]
  · intro s1 h hw
    simp [Escaper.transform_char, h, hw]
  · intro h
    simp [Escaper.transform_char, h]
  · intro herr
    unfold Escaper.transform_char at herr
    by_cases h : esc.chars.contains_char c = true
    · rw [if_pos h] at herr
      cases hw : w s esc.escape with
      | error e =>
        rw [hw] at herr
        simp only [Except.error.injEq] at herr
        subst herr
        exact ⟨s, esc.escape, hw⟩
      | ok s1 =>
        rw [hw] at herr
        simp only at herr
        exact ⟨s1, c, herr⟩
    · rw [if_neg h] at herr
      exact ⟨s, c, herr⟩

/-- Witness for C5 at a concrete instance: on an always-failing sink, a
special character's escape write fails and `transform_char` returns that
sink error unchanged. -/
theorem sink_error_propagation_witness :
    (Escaper.new '\\' (CharSet.single '$')).chars.contains_char '$' = true ∧
    (Escaper.new '\\' (CharSet.single '$')).transform_char
        (fun (_ : Unit) (_ : Char) => (Except.error 0 : Except Nat Unit)) () '$'
      = Except.error 0 :=
  ⟨by decide,
   (sink_error_propagation (Escaper.new '\\' (CharSet.single '$'))
      (fun (_ : Unit) (_ : Char) => (Except.error 0 : Except Nat Unit)) () '$' 0).1
     (by decide) rfl⟩

/-- C6 counterexample: for the empty half-open range `['a', 'a')` the
claim's corollary "contains_char of the start bound is true" fails: the
code returns `false` because `'a' < 'a'` does not hold. -/
theorem range_empty_start_not_contained :
    (CharSet.range 'a' 'a').contains_char 'a' = false := by decide

/-- C6 amended: membership in the half-open range `[a, b)` holds exactly
when `a ≤ c` and `c < b`; hence the start bound is contained provided the
range is nonempty (`a < b`), the end bound is never contained, and every
character below the start is excluded; a range-from contains exactly the
characters at or above its start, a range-to exactly those below its end,
and the full range contains every character. -/
theorem range_membership_spec (a b c : Char) :
    ((CharSet.range a b).contains_char c = true ↔ a ≤ c ∧ c < b) ∧
    (a < b → (CharSet.range a b).contains_char a = true) ∧
    ((CharSet.range a b).contains_char b = false) ∧
    (c < a → (CharSet.range a b).contains_char c = false) ∧
    ((CharSet.rangeFrom a).contains_char c = true ↔ a ≤ c) ∧
    ((CharSet.rangeTo b).contains_char c = true ↔ c < b) ∧
    ((CharSet.rangeFull).contains_char c = true) := by
  refine ⟨?_, ?_, ?_, ?_, ?_, ?_, rfl⟩
  · simp [CharSet.contains_char]
  · intro hab
    simp [CharSet.contains_char, le_refl, hab]
  · simp [CharSet.contains_char, lt_irrefl]
  · intro hca
    simp [CharSet.contains_char, not_le.mpr hca]
  · simp [CharSet.contains_char]
  · simp [CharSet.contains_char]

/-- Witness for C6 at concrete characters: for the nonempty range
`['a', 'b')` the start is contained, and the character `'A'`, which lies
below the start, is not. -/
theorem range_membership_spec_witness :
    ('a' < 'b' ∧ (CharSet.range 'a' 'b').contains_char 'a' = true) ∧
    ('A' < 'a' ∧ (CharSet.range 'a' 'b').contains_char 'A' = false) :=
  ⟨⟨by decide, (range_membership_spec 'a' 'b' 'A').2.1 (by decide)⟩,
   ⟨by decide, (range_membership_spec 'a' 'b' 'A').2.2.2.1 (by decide)⟩⟩

/-- C7: the escape character is never automatically special: feeding the
escape character itself through the transform emits an escape before it
exactly when the configured set contains it, and with a set not
containing it, it passes through as a single literal character. -/
theorem escape_char_not_auto_special (esc : Escaper) :
    esc.escapeString [esc.escape]
      = (if esc.chars.contains_char esc.escape
          then [esc.escape, esc.escape] else [esc.escape]) ∧
    (esc.chars.contains_char esc.escape = false →
      esc.escapeString [esc.escape] = [esc.escape]) := by
  have h : esc.escapeString [esc.escape] = escOne esc esc.escape := by
    rw [escapeString_eq]
    simp
  refine ⟨?_, ?_⟩
  · rw [h]; rfl
  · intro hf
    rw [h]
    unfold escOne
    rw [hf]
    rfl

/-- Witness for C7 at a concrete instance: with special set `{'$'}` and
escape character backslash, the backslash is not special and passes
through unchanged. -/
theorem escape_char_not_auto_special_witness :
    (Escaper.new '\\' (CharSet.single '$')).chars.contains_char
      (Escaper.new '\\' (CharSet.single '$')).escape = false ∧
    (Escaper.new '\\' (CharSet.single '$')).escapeString
      [(Escaper.new '\\' (CharSet.single '$')).escape]
      = [(Escaper.new '\\' (CharSet.single '$')).escape] :=
  ⟨by decide,
   (escape_char_not_auto_special (Escaper.new '\\' (CharSet.single '$'))).2 (by decide)⟩

/-- C9: over `w`-bit unsigned machine arithmetic, `transform_size_hint`
computes `(bytes * len_utf8(escape)) mod 2^w`; for an escape character at
least 2 bytes wide and a byte count above `2^w / k`, the product wraps
and the returned value is strictly smaller than the mathematical product. -/
theorem size_hint_machine_wrap (w : Nat) (esc : Escaper) (n : Nat) :
    esc.transform_size_hint_mach w n = (n * lenUtf8 esc.escape) % 2 ^ w ∧
    (2 ≤ lenUtf8 esc.escape → 2 ^ w / lenUtf8 esc.escape < n →
      esc.transform_size_hint_mach w n < n * lenUtf8 esc.escape) := by
  refine ⟨rfl, ?_⟩
  intro hk hdiv
  have hkpos : 0 < lenUtf8 esc.escape := by omega
  have hlt : 2 ^ w < n * lenUtf8 esc.escape :=
    (Nat.div_lt_iff_lt_mul hkpos).mp hdiv
  have hmod : esc.transform_size_hint_mach w n < 2 ^ w :=
    Nat.mod_lt _ (Nat.pos_pow_of_pos w (by omega))
  omega

/-- Witness for C9 at a concrete instance: word width 8, the 2-byte
escape character U+00E9 and byte count 129: the product 258 wraps to 2,
which is smaller than 258. -/
theorem size_hint_machine_wrap_witness :
    2 ≤ lenUtf8 (Char.ofNat 0xE9) ∧
    2 ^ 8 / lenUtf8 (Char.ofNat 0xE9) < 129 ∧
    (Escaper.new (Char.ofNat 0xE9) CharSet.rangeFull).transform_size_hint_mach 8 129
      < 129 * lenUtf8 (Escaper.new (Char.ofNat 0xE9) CharSet.rangeFull).escape :=
  ⟨by decide, by decide,
   (size_hint_machine_wrap 8 (Escaper.new (Char.ofNat 0xE9) CharSet.rangeFull) 129).2
     (by decide) (by decide)⟩
